import Mathlib

/-
Verification of the availability interval engine of the bookSmart
scheduling service.

The engine lives in internal/scheduler/helpers.go (the interval
normalizer: convertIntervalsIntoChunks, groupConsecutiveChunks,
sortChunks, mergeOverlappingChunks, groupConsecutiveMergedChunks) and in
the availability service file (CreateAvailability, UpdateAvailability,
GetBatchAvailability, removeTimeInterval).

Modelling conventions:
- Go time.Time is modelled as an integer count of nanoseconds (Int);
  time.Time comparisons Before/After/Equal become < / > / = on Int, and
  Add of a Duration becomes integer addition, with 15*time.Minute equal
  to 900000000000 nanoseconds.  Go Minute() (the minute inside the hour)
  becomes Euclidean mod/div on nanoseconds.
- Go TimeInterval is a slice of time.Time ([]time.Time), modelled as
  List Int.  Indexing interval[0] / interval[1] is modelled with getD;
  every claim below only evaluates these accessors on intervals whose
  length was checked, matching the Go code paths that do not panic.
- Fallible Go functions returning (T, error) are modelled as Except with
  an explicit error inductive mirroring the distinct fmt.Errorf cases.
-/

namespace BookSmart

/-- Nanoseconds in one minute (Go time.Minute). -/
def nsPerMinute : Int := 60000000000

/-- Nanoseconds in one hour (Go time.Hour). -/
def nsPerHour : Int := 3600000000000

/-- Nanoseconds in 15 minutes: the chunkDuration constant of
convertIntervalsIntoChunks (15 * time.Minute). -/
def chunkDuration : Int := 900000000000

/-- Go type TimeInterval ([]time.Time), a slice of timestamps. -/
abbrev TimeInterval := List Int

/-- Reading interval[0] (the start) of a Go TimeInterval. -/
def tiStart (i : TimeInterval) : Int := i.getD 0 0

/-- Reading interval[1] (the end) of a Go TimeInterval. -/
def tiEnd (i : TimeInterval) : Int := i.getD 1 0

/-- Go t.Minute(): the minute within the hour, in 0..59.  Go computes it
from the absolute (non-negative) seconds of the wall clock, which is
Euclidean mod/div on the nanosecond count. -/
def minuteOf (t : Int) : Int := t % nsPerHour / nsPerMinute

/-- The distinct error cases of convertIntervalsIntoChunks, in source
order: "interval must have at least 2 time values", "start time must be
on 00, 15, 30, or 45 minutes, got %d", "end time must be on 00, 15, 30,
or 45 minutes, got %d".  The boundary errors carry the offending minute
value; the constructor identifies the offending field. -/
inductive ConvErr where
  | malformedInterval : ConvErr
  | invalidStartBoundary (m : Int) : ConvErr
  | invalidEndBoundary (m : Int) : ConvErr
deriving DecidableEq

/-- Whether a ConvErr is one of the two InvalidBoundary errors. -/
def ConvErr.isInvalidBoundary : ConvErr → Bool
  | .malformedInterval => false
  | .invalidStartBoundary _ => true
  | .invalidEndBoundary _ => true

/-- The inner loop of convertIntervalsIntoChunks:
  current := start
  for current.Before(end) {
    chunkEnd := current.Add(chunkDuration)
    chunks = append(chunks, TimeInterval{current, chunkEnd})
    current = chunkEnd
  } -/
def chunkWalk (current e : Int) : List TimeInterval :=
  if current < e then
    [current, current + chunkDuration] :: chunkWalk (current + chunkDuration) e
  else
    []
termination_by (e - current).toNat
decreasing_by
  simp_wf
  have h : (0 : Int) < chunkDuration := by decide
  omega

/-- convertIntervalsIntoChunks from helpers.go.  For each interval, in
order: the arity check (len(interval) < 2 fails with MalformedInterval),
the two 15-minute boundary checks on start.Minute() and end.Minute()
(failing with the boundary errors), then the 15-minute chunk walk.  An
error on any interval aborts the whole call with that error and no
chunks. -/
def convertIntervalsIntoChunks : List TimeInterval → Except ConvErr (List TimeInterval)
  | [] => .ok []
  | interval :: rest =>
    if interval.length < 2 then
      .error .malformedInterval
    else
      let s := tiStart interval
      let e := tiEnd interval
      if minuteOf s % 15 ≠ 0 then
        .error (.invalidStartBoundary (minuteOf s))
      else if minuteOf e % 15 ≠ 0 then
        .error (.invalidEndBoundary (minuteOf e))
      else
        match convertIntervalsIntoChunks rest with
        | .error err => .error err
        | .ok more => .ok (chunkWalk s e ++ more)

/-- The inner loop of sortChunks for one fixed outer index i: the holder
x is chunks[i]; scanning j over the remaining positions, whenever
chunks[i][0].After(chunks[j][0]) the two entries swap.  Returned are the
final holder (the element left at position i when the inner loop ends)
and the remaining positions after all swaps. -/
def selectSwap (x : TimeInterval) : List TimeInterval → TimeInterval × List TimeInterval
  | [] => (x, [])
  | y :: rest =>
    if tiStart x > tiStart y then
      ((selectSwap y rest).1, x :: (selectSwap y rest).2)
    else
      ((selectSwap x rest).1, y :: (selectSwap x rest).2)

/-- The outer loop of sortChunks; the fuel argument counts the remaining
outer-loop iterations (the Go loop runs over i = 0 .. len-2, and an
extra iteration on a singleton is a no-op). -/
def sortLoop : Nat → List TimeInterval → List TimeInterval
  | 0, l => l
  | _ + 1, [] => []
  | n + 1, x :: xs => (selectSwap x xs).1 :: sortLoop n (selectSwap x xs).2

/-- sortChunks from helpers.go: the in-place double-loop exchange sort
by start time, modelled functionally (state passing instead of index
mutation). -/
def sortChunks (chunks : List TimeInterval) : List TimeInterval :=
  sortLoop chunks.length chunks

/-- The loop of mergeOverlappingChunks: current is the interval being
grown; a next chunk with !current[1].Before(next[0]) merges into it
(end extended when next[1].After(current[1])), otherwise current is
emitted and next becomes current.  The final current is emitted at the
end. -/
def mergeLoop (cur : Int × Int) : List TimeInterval → List TimeInterval
  | [] => [[cur.1, cur.2]]
  | next :: rest =>
    if ¬ (cur.2 < tiStart next) then
      mergeLoop (cur.1, if cur.2 < tiEnd next then tiEnd next else cur.2) rest
    else
      [cur.1, cur.2] :: mergeLoop (tiStart next, tiEnd next) rest

/-- mergeOverlappingChunks from helpers.go. -/
def mergeOverlappingChunks : List TimeInterval → List TimeInterval
  | [] => []
  | c :: rest => mergeLoop (tiStart c, tiEnd c) rest

/-- The loop of groupConsecutiveMergedChunks: (s, e) is the interval
being grown; a chunk whose start Equal(e) extends it, otherwise (s, e)
is emitted and the chunk starts a new interval. -/
def groupLoop (s e : Int) : List TimeInterval → List TimeInterval
  | [] => [[s, e]]
  | c :: rest =>
    if tiStart c = e then
      groupLoop s (tiEnd c) rest
    else
      [s, e] :: groupLoop (tiStart c) (tiEnd c) rest

/-- groupConsecutiveMergedChunks from helpers.go. -/
def groupConsecutiveMergedChunks : List TimeInterval → List TimeInterval
  | [] => []
  | c :: rest => groupLoop (tiStart c) (tiEnd c) rest

/-- groupConsecutiveChunks from helpers.go: empty input short-circuits
to an empty (non-nil) slice; otherwise sort a copy by start time, merge
overlapping-or-touching chunks, then group exactly-consecutive chunks. -/
def groupConsecutiveChunks (chunks : List TimeInterval) : List TimeInterval :=
  if chunks.length = 0 then
    []
  else
    groupConsecutiveMergedChunks (mergeOverlappingChunks (sortChunks chunks))

/-- The loop of removeTimeInterval over the stored intervals: an entry
of wrong arity is skipped; an interval with no overlap
(intervalEnd.Before(removeStart) or intervalStart.After(removeEnd)) is
kept; otherwise the surviving piece before the removal window (when
intervalStart.Before(removeStart)) and the surviving piece after it
(when intervalEnd.After(removeEnd)) are appended. -/
def removeLoop (removeStart removeEnd : Int) : List TimeInterval → List TimeInterval
  | [] => []
  | interval :: rest =>
    if interval.length ≠ 2 then
      removeLoop removeStart removeEnd rest
    else
      let s := tiStart interval
      let e := tiEnd interval
      if e < removeStart ∨ s > removeEnd then
        interval :: removeLoop removeStart removeEnd rest
      else
        (if s < removeStart then [[s, removeStart]] else []) ++
          (if e > removeEnd then [[removeEnd, e]] else []) ++
          removeLoop removeStart removeEnd rest

/-- removeTimeInterval from the availability service: a toRemove entry
whose arity is not exactly 2 returns the input unchanged; otherwise the
removal window is subtracted from every stored interval in order. -/
def removeTimeInterval (intervals : List TimeInterval) (toRemove : TimeInterval) : List TimeInterval :=
  if toRemove.length ≠ 2 then
    intervals
  else
    removeLoop (tiStart toRemove) (tiEnd toRemove) intervals

/-- The remove phase of UpdateAvailability:
  for _, removeInterval := range *req.Changes.Remove {
    updatedIntervals = removeTimeInterval(updatedIntervals, removeInterval)
  }
modelled as structural recursion over the remove list. -/
def applyRemovals (intervals : List TimeInterval) : List TimeInterval → List TimeInterval
  | [] => intervals
  | r :: rest => applyRemovals (removeTimeInterval intervals r) rest

/-- The identity resolved from the Firebase token by auth.GetCurrentUser
(the fields the availability service reads). -/
structure CurrentUser where
  userID : String
  orgID : String
  role : String

/-- A row of the availability table as read by getAvailability. -/
structure AvailabilityRecord where
  availabilityID : String
  userID : String
  startTime : Int
  endTime : Int

/-- The error outcomes of GetBatchAvailability, in source order:
no_users (empty user-ID list), forbidden (a non-admin requested a
foreign ID), database_error (a storage read failed). -/
inductive BatchErr where
  | noUsers : BatchErr
  | forbidden : BatchErr
  | databaseError : BatchErr
deriving DecidableEq

/-- The per-user loop of GetBatchAvailability: for each requested ID in
input order, read the stored rows, turn them into chunks, regroup them
with groupConsecutiveChunks, and append the aggregate; a failed read
aborts the whole request with database_error. -/
def batchLoop (store : String → Except Unit (List AvailabilityRecord)) :
    List String → Except BatchErr (List (String × List TimeInterval))
  | [] => .ok []
  | uid :: rest =>
    match store uid with
    | .error _ => .error .databaseError
    | .ok records =>
      let chunks := records.map fun r => [r.startTime, r.endTime]
      let ranges := groupConsecutiveChunks chunks
      match batchLoop store rest with
      | .error err => .error err
      | .ok out => .ok ((uid, ranges) :: out)

/-- GetBatchAvailability after authentication and body parsing, with the
storage reads abstracted as the store argument: an empty ID list fails
with no_users; then a non-admin caller whose list contains any ID other
than their own fails with forbidden, before any storage access; then the
per-user loop runs. -/
def getBatchAvailability (cu : CurrentUser) (userIds : List String)
    (store : String → Except Unit (List AvailabilityRecord)) :
    Except BatchErr (List (String × List TimeInterval)) :=
  if userIds.length = 0 then
    .error .noUsers
  else if cu.role ≠ "admin" ∧ ∃ uid ∈ userIds, uid ≠ cu.userID then
    .error .forbidden
  else
    batchLoop store userIds

/-- The error outcomes of the validation pipeline of CreateAvailability,
in source order: no_intervals (empty request), invalid_intervals
(propagated normalizer error), no_valid_intervals (zero chunks from a
non-empty request). -/
inductive CreateErr where
  | noIntervals : CreateErr
  | invalidIntervals (e : ConvErr) : CreateErr
  | noValidIntervals : CreateErr
deriving DecidableEq

/-- The interval-validation pipeline of CreateAvailability (after
authentication, authorization and body checks, before storage): reject
an empty interval list, run convertIntervalsIntoChunks propagating its
error, and reject an empty chunk list. -/
def createAvailabilityCheck (intervals : List TimeInterval) : Except CreateErr (List TimeInterval) :=
  if intervals.length = 0 then
    .error .noIntervals
  else
    match convertIntervalsIntoChunks intervals with
    | .error e => .error (.invalidIntervals e)
    | .ok chunks =>
      if chunks.length = 0 then
        .error .noValidIntervals
      else
        .ok chunks

/-!
Proof infrastructure: a pair-world mirror of the chunk pipeline.

The Go functions operate on TimeInterval slices whose relevant elements
always have exactly two entries.  For proofs it is convenient to mirror
sortChunks / mergeOverlappingChunks / groupConsecutiveMergedChunks on
lists of pairs and relate the two worlds by the embedding inj below.
-/

/-- Embedding of a pair as a two-element TimeInterval. -/
def inj (p : Int × Int) : TimeInterval := [p.1, p.2]

/-- Pair-world mirror of selectSwap. -/
def selectP (x : Int × Int) : List (Int × Int) → (Int × Int) × List (Int × Int)
  | [] => (x, [])
  | y :: rest =>
    if x.1 > y.1 then
      ((selectP y rest).1, x :: (selectP y rest).2)
    else
      ((selectP x rest).1, y :: (selectP x rest).2)

/-- Pair-world mirror of sortLoop. -/
def sortLoopP : Nat → List (Int × Int) → List (Int × Int)
  | 0, l => l
  | _ + 1, [] => []
  | n + 1, x :: xs => (selectP x xs).1 :: sortLoopP n (selectP x xs).2

/-- Pair-world mirror of sortChunks. -/
def sortP (l : List (Int × Int)) : List (Int × Int) := sortLoopP l.length l

/-- Pair-world mirror of mergeLoop. -/
def mergeLoopP (cur : Int × Int) : List (Int × Int) → List (Int × Int)
  | [] => [cur]
  | next :: rest =>
    if ¬ (cur.2 < next.1) then
      mergeLoopP (cur.1, if cur.2 < next.2 then next.2 else cur.2) rest
    else
      cur :: mergeLoopP next rest

/-- Pair-world mirror of mergeOverlappingChunks. -/
def mergeP : List (Int × Int) → List (Int × Int)
  | [] => []
  | c :: rest => mergeLoopP c rest

/-- Pair-world mirror of groupLoop. -/
def groupLoopP (s e : Int) : List (Int × Int) → List (Int × Int)
  | [] => [(s, e)]
  | c :: rest =>
    if c.1 = e then
      groupLoopP s c.2 rest
    else
      (s, e) :: groupLoopP c.1 c.2 rest

/-- Pair-world mirror of groupConsecutiveMergedChunks. -/
def groupP : List (Int × Int) → List (Int × Int)
  | [] => []
  | c :: rest => groupLoopP c.1 c.2 rest

/-- Pair-world mirror of the whole groupConsecutiveChunks pipeline. -/
def groupPipeP (l : List (Int × Int)) : List (Int × Int) :=
  groupP (mergeP (sortP l))

/-- An instant t lies inside one of the half-open intervals of l. -/
def covers (l : List (Int × Int)) (t : Int) : Prop :=
  ∃ p ∈ l, p.1 ≤ t ∧ t < p.2

/-- Interval p ends strictly before interval q starts. -/
def separated (p q : Int × Int) : Prop := p.2 < q.1

/-- Canonical shape of an interval list: consecutive intervals strictly
separated and every interval non-degenerate. -/
def canonical (l : List (Int × Int)) : Prop :=
  l.Chain' separated ∧ ∀ p ∈ l, p.1 < p.2

/-- Ordering of pairs by start, used to state sortedness. -/
def leStart (p q : Int × Int) : Prop := p.1 ≤ q.1

instance : DecidableRel leStart :=
  fun p q => inferInstanceAs (Decidable (p.1 ≤ q.1))

instance : IsTotal (Int × Int) leStart :=
  ⟨fun p q => Int.le_total p.1 q.1⟩

instance : IsTrans (Int × Int) leStart :=
  ⟨fun _ _ _ h₁ h₂ => le_trans h₁ h₂⟩

/-- The 15-minute chunks of the pair (a, b), described directly: one
chunk per step of the walk.  For aligned a and b this is proved equal to
chunkWalk a b. -/
def pairChunks (p : Int × Int) : List (Int × Int) :=
  (List.range (((p.2 - p.1) / chunkDuration).toNat)).map
    fun i : Nat => (p.1 + chunkDuration * (i : Int), p.1 + chunkDuration * ((i : Int) + 1))

/-- Chunks of a whole range list, in input order. -/
def pairChunksAll (l : List (Int × Int)) : List (Int × Int) :=
  l.flatMap pairChunks

/-!
Spec-modelled reference functions, written from the words of the spec
rather than from the source, for the refinement claims.
-/

/-- Modelled from the spec (toRanges Step 2): scan the sorted list; two
consecutive ranges merge into one spanning range when the earlier end is
greater than or equal to the later start, the spanning range keeping the
minimal start and maximal end; otherwise the earlier range is final. -/
def specMergeLoop (x : Int × Int) : List (Int × Int) → List (Int × Int)
  | [] => [x]
  | y :: rest =>
    if y.1 ≤ x.2 then
      specMergeLoop (x.1, max x.2 y.2) rest
    else
      x :: specMergeLoop y rest

/-- Modelled from the spec: merge pass over a range list. -/
def specMergeRanges : List (Int × Int) → List (Int × Int)
  | [] => []
  | x :: rest => specMergeLoop x rest

/-- Modelled from the spec (round-trip property): the input ranges
sorted ascending by start with any adjacent or overlapping ranges merged
into single spanning ranges. -/
def specSortMerge (l : List (Int × Int)) : List (Int × Int) :=
  specMergeRanges (l.insertionSort leStart)

/-- Modelled from the spec (update subtraction, one range against one
removal window): a range with no overlap with the window, including one
merely touching its edge, is kept unchanged; a range fully inside the
window is dropped; a partially overlapping range is split into the
surviving sub-ranges before and/or after the window. -/
def specSubtractOne (removeStart removeEnd s e : Int) : List TimeInterval :=
  if e ≤ removeStart ∨ removeEnd ≤ s then
    [[s, e]]
  else if removeStart ≤ s ∧ e ≤ removeEnd then
    []
  else
    (if s < removeStart then [[s, removeStart]] else []) ++
      (if removeEnd < e then [[removeEnd, e]] else [])

/-!
Lemmas.
-/

@[simp]
theorem tiStart_cons₂ (a b : Int) (t : List Int) : tiStart (a :: b :: t) = a := rfl

@[simp]
theorem tiEnd_cons₂ (a b : Int) (t : List Int) : tiEnd (a :: b :: t) = b := rfl

@[simp]
theorem tiStart_inj (p : Int × Int) : tiStart (inj p) = p.1 := rfl

@[simp]
theorem tiEnd_inj (p : Int × Int) : tiEnd (inj p) = p.2 := rfl

theorem chunkDuration_pos : (0 : Int) < chunkDuration := by decide

theorem chunkWalk_of_le {current e : Int} (h : e ≤ current) : chunkWalk current e = [] := by
  rw [chunkWalk]
  simp [show ¬ current < e by omega]

theorem chunkWalk_spec : ∀ (k : Nat) (s : Int),
    chunkWalk s (s + chunkDuration * k) =
      (List.range k).map
        fun i : Nat => [s + chunkDuration * (i : Int), s + chunkDuration * ((i : Int) + 1)] := by
  intro k
  induction k with
  | zero =>
    intro s
    rw [chunkWalk]
    simp
  | succ k ih =>
    intro s
    rw [chunkWalk]
    rw [if_pos (by have h := chunkDuration_pos; unfold chunkDuration at *; push_cast; omega)]
    have h2 : s + chunkDuration * ((k + 1 : Nat) : Int) = s + chunkDuration + chunkDuration * (k : Int) := by
      push_cast
      ring
    rw [h2, ih (s + chunkDuration), List.range_succ_eq_map]
    simp only [List.map_cons, List.map_map]
    congr 1
    · simp
    · apply List.map_congr_left
      intro i _
      simp only [Function.comp_apply, List.cons.injEq, and_true]
      unfold chunkDuration
      push_cast
      constructor <;> omega

theorem minute_aligned {t : Int} (h : t % chunkDuration = 0) : minuteOf t % 15 = 0 := by
  unfold minuteOf nsPerHour nsPerMinute
  unfold chunkDuration at h
  omega

theorem chunkWalk_eq_pairChunks {a b : Int} (ha : a % chunkDuration = 0)
    (hb : b % chunkDuration = 0) : chunkWalk a b = (pairChunks (a, b)).map inj := by
  rcases le_or_lt b a with h | h
  · rw [chunkWalk_of_le h]
    unfold pairChunks
    have h0 : ((b - a) / chunkDuration).toNat = 0 := by
      unfold chunkDuration
      omega
    simp [h0]
  · obtain ⟨k, hk⟩ : ∃ k : Nat, b = a + chunkDuration * k :=
      ⟨((b - a) / chunkDuration).toNat, by unfold chunkDuration at *; omega⟩
    rw [hk, chunkWalk_spec]
    unfold pairChunks
    have h1 : (((a, a + chunkDuration * (k : Int)).2 - (a, a + chunkDuration * (k : Int)).1) / chunkDuration).toNat = k := by
      simp only
      unfold chunkDuration
      omega
    rw [h1, List.map_map]
    rfl

@[simp]
theorem covers_nil (t : Int) : ¬ covers [] t := by
  simp [covers]

@[simp]
theorem covers_cons (p : Int × Int) (l : List (Int × Int)) (t : Int) :
    covers (p :: l) t ↔ (p.1 ≤ t ∧ t < p.2) ∨ covers l t := by
  simp [covers]

theorem covers_append (l₁ l₂ : List (Int × Int)) (t : Int) :
    covers (l₁ ++ l₂) t ↔ covers l₁ t ∨ covers l₂ t := by
  simp [covers, or_and_right, exists_or]

theorem covers_of_perm {l₁ l₂ : List (Int × Int)} (h : l₁.Perm l₂) (t : Int) :
    covers l₁ t ↔ covers l₂ t := by
  simp only [covers]
  constructor <;> rintro ⟨p, hp, h₁, h₂⟩
  · exact ⟨p, h.mem_iff.mp hp, h₁, h₂⟩
  · exact ⟨p, h.mem_iff.mpr hp, h₁, h₂⟩

theorem selectP_fst_le (x : Int × Int) (l : List (Int × Int)) :
    (selectP x l).1.1 ≤ x.1 := by
  induction l generalizing x with
  | nil => simp [selectP]
  | cons y rest ih =>
    rw [selectP]
    split_ifs with h
    · exact le_trans (ih y) (by omega)
    · exact ih x

theorem selectP_perm (x : Int × Int) (l : List (Int × Int)) :
    ((selectP x l).1 :: (selectP x l).2).Perm (x :: l) := by
  induction l generalizing x with
  | nil => simp [selectP]
  | cons y rest ih =>
    rw [selectP]
    split_ifs with h
    · exact (List.Perm.swap x (selectP y rest).1 (selectP y rest).2).trans ((ih y).cons x)
    · exact ((List.Perm.swap y (selectP x rest).1 (selectP x rest).2).trans
        ((ih x).cons y)).trans (List.Perm.swap x y rest)

theorem selectP_min (x : Int × Int) (l : List (Int × Int)) :
    ∀ z ∈ (selectP x l).2, (selectP x l).1.1 ≤ z.1 := by
  induction l generalizing x with
  | nil => simp [selectP]
  | cons y rest ih =>
    rw [selectP]
    split_ifs with h
    · intro z hz
      simp only [List.mem_cons] at hz
      rcases hz with rfl | hz
      · exact le_trans (selectP_fst_le y rest) (by omega)
      · exact ih y z hz
    · intro z hz
      simp only [List.mem_cons] at hz
      rcases hz with rfl | hz
      · exact le_trans (selectP_fst_le x rest) (by omega)
      · exact ih x z hz

theorem sortLoopP_perm : ∀ (n : Nat) (l : List (Int × Int)), (sortLoopP n l).Perm l := by
  intro n
  induction n with
  | zero => intro l; exact List.Perm.refl l
  | succ n ih =>
    intro l
    match l with
    | [] => exact List.Perm.refl []
    | x :: xs =>
      rw [sortLoopP]
      exact ((ih (selectP x xs).2).cons (selectP x xs).1).trans (selectP_perm x xs)

theorem selectP_rest_length (x : Int × Int) (l : List (Int × Int)) :
    (selectP x l).2.length = l.length := by
  have h := (selectP_perm x l).length_eq
  simpa using h

theorem sortLoopP_sorted : ∀ (n : Nat) (l : List (Int × Int)), l.length ≤ n →
    (sortLoopP n l).Pairwise leStart := by
  intro n
  induction n with
  | zero =>
    intro l hl
    have h0 : l = [] := List.length_eq_zero.mp (Nat.le_zero.mp hl)
    subst h0
    simp [sortLoopP]
  | succ n ih =>
    intro l hl
    match l with
    | [] => simp [sortLoopP]
    | x :: xs =>
      rw [sortLoopP]
      have hlen : (selectP x xs).2.length ≤ n := by
        rw [selectP_rest_length]
        simpa using hl
      refine List.pairwise_cons.mpr ⟨?_, ih (selectP x xs).2 hlen⟩
      intro z hz
      exact selectP_min x xs z ((sortLoopP_perm n (selectP x xs).2).mem_iff.mp hz)

theorem sortP_perm (l : List (Int × Int)) : (sortP l).Perm l :=
  sortLoopP_perm l.length l

theorem sortP_sorted (l : List (Int × Int)) : (sortP l).Pairwise leStart :=
  sortLoopP_sorted l.length l le_rfl

theorem mergeLoopP_head : ∀ (l : List (Int × Int)) (cur : Int × Int),
    ∃ e rest, mergeLoopP cur l = (cur.1, e) :: rest ∧ cur.2 ≤ e := by
  intro l
  induction l with
  | nil => exact fun cur => ⟨cur.2, [], rfl, le_rfl⟩
  | cons next rest ih =>
    intro cur
    rw [mergeLoopP]
    by_cases h : cur.2 < next.1
    · rw [if_neg (not_not_intro h)]
      exact ⟨cur.2, mergeLoopP next rest, rfl, le_rfl⟩
    · rw [if_pos h]
      obtain ⟨e, r, heq, hle⟩ := ih (cur.1, if cur.2 < next.2 then next.2 else cur.2)
      refine ⟨e, r, heq, le_trans ?_ hle⟩
      dsimp only
      split_ifs <;> omega

theorem mergeLoopP_main : ∀ (l : List (Int × Int)) (cur : Int × Int),
    l.Pairwise leStart → (∀ p ∈ l, cur.1 ≤ p.1) → cur.1 < cur.2 → (∀ p ∈ l, p.1 < p.2) →
    canonical (mergeLoopP cur l) ∧
      (∀ t, covers (mergeLoopP cur l) t ↔ (cur.1 ≤ t ∧ t < cur.2) ∨ covers l t) := by
  intro l
  induction l with
  | nil =>
    intro cur _ _ hcur _
    constructor
    · exact ⟨List.chain'_singleton cur, by simpa [mergeLoopP] using hcur⟩
    · intro t
      simp [mergeLoopP]
  | cons next rest ih =>
    intro cur hsorted hmin hcur hproper
    have hnextp : next.1 < next.2 := hproper next (List.mem_cons_self next rest)
    have hminnext : cur.1 ≤ next.1 := hmin next (List.mem_cons_self next rest)
    have hsorted' : rest.Pairwise leStart := (List.pairwise_cons.mp hsorted).2
    have hnextmin : ∀ p ∈ rest, next.1 ≤ p.1 := (List.pairwise_cons.mp hsorted).1
    have hproper' : ∀ p ∈ rest, p.1 < p.2 := fun p hp => hproper p (List.mem_cons_of_mem next hp)
    rw [mergeLoopP]
    by_cases h : cur.2 < next.1
    · -- push: cur.2 < next.1
      rw [if_neg (not_not_intro h)]
      obtain ⟨hcanon, hcov⟩ := ih next hsorted' hnextmin hnextp hproper'
      obtain ⟨e, r, heq, _⟩ := mergeLoopP_head rest next
      constructor
      · constructor
        · refine List.chain'_cons'.mpr ⟨?_, hcanon.1⟩
          intro b hb
          rw [heq] at hb
          simp only [List.head?_cons, Option.mem_def, Option.some.injEq] at hb
          subst hb
          exact (show separated cur (next.1, e) from h)
        · intro p hp
          rcases List.mem_cons.mp hp with rfl | hp
          · exact hcur
          · exact hcanon.2 p hp
      · intro t
        rw [covers_cons, hcov t, covers_cons]
    · -- merge: next.1 ≤ cur.2
      rw [if_pos h]
      obtain ⟨hcanon, hcov⟩ := ih (cur.1, if cur.2 < next.2 then next.2 else cur.2)
        hsorted'
        (fun p hp => le_trans hminnext (hnextmin p hp))
        (by dsimp only; split_ifs <;> omega)
        hproper'
      refine ⟨hcanon, fun t => ?_⟩
      rw [hcov t, covers_cons]
      by_cases hc : covers rest t
      · simp [hc]
      · simp only [hc, or_false]
        split_ifs with h2 <;> constructor <;> intro hx <;> omega

theorem mergeP_main (l : List (Int × Int)) (hs : l.Pairwise leStart)
    (hp : ∀ p ∈ l, p.1 < p.2) :
    canonical (mergeP l) ∧ ∀ t, covers (mergeP l) t ↔ covers l t := by
  match l with
  | [] =>
    refine ⟨⟨List.chain'_nil, by simp [mergeP]⟩, ?_⟩
    intro t
    simp [mergeP]
  | c :: rest =>
    obtain ⟨hcanon, hcov⟩ := mergeLoopP_main rest c
      (List.pairwise_cons.mp hs).2
      (fun p hip => (List.pairwise_cons.mp hs).1 p hip)
      (hp c (List.mem_cons_self c rest))
      (fun p hip => hp p (List.mem_cons_of_mem c hip))
    refine ⟨hcanon, fun t => ?_⟩
    rw [show mergeP (c :: rest) = mergeLoopP c rest from rfl, hcov t, covers_cons]

theorem groupLoopP_id : ∀ (l : List (Int × Int)) (s e : Int),
    List.Chain' separated ((s, e) :: l) → groupLoopP s e l = (s, e) :: l := by
  intro l
  induction l with
  | nil => intro s e _; rfl
  | cons c rest ih =>
    intro s e hchain
    have hsep : separated (s, e) c := (List.chain'_cons.mp hchain).1
    have hne : ¬ c.1 = e := by
      simp only [separated] at hsep
      omega
    rw [groupLoopP, if_neg hne]
    have htail : List.Chain' separated ((c.1, c.2) :: rest) := by
      simpa using (List.chain'_cons.mp hchain).2
    rw [ih c.1 c.2 htail]

theorem groupP_id (l : List (Int × Int)) (h : List.Chain' separated l) : groupP l = l := by
  match l with
  | [] => rfl
  | c :: rest =>
    rw [show groupP (c :: rest) = groupLoopP c.1 c.2 rest from rfl]
    rw [groupLoopP_id rest c.1 c.2 (by simpa using h)]

theorem chain_sep_head : ∀ (l : List (Int × Int)) (s e : Int),
    List.Chain' separated ((s, e) :: l) → (∀ p ∈ l, p.1 < p.2) →
    ∀ p ∈ l, e < p.1 := by
  intro l
  induction l with
  | nil => intro s e _ _ p hp; simp at hp
  | cons c rest ih =>
    intro s e hchain hproper p hp
    have hsep : separated (s, e) c := (List.chain'_cons.mp hchain).1
    simp only [separated] at hsep
    rcases List.mem_cons.mp hp with rfl | hp
    · exact hsep
    · have hcp : c.1 < c.2 := hproper c (List.mem_cons_self c rest)
      have h2 := ih c.1 c.2 (by simpa using (List.chain'_cons.mp hchain).2)
        (fun q hq => hproper q (List.mem_cons_of_mem c hq)) p hp
      omega

theorem canonicalHeadEnd (p₁ p₂ : Int × Int) (r₁ r₂ : List (Int × Int))
    (_hp₁ : p₁.1 < p₁.2) (hp₂ : p₂.1 < p₂.2)
    (hhead₂ : ∀ p ∈ r₂, p₂.2 < p.1)
    (hs : p₁.1 = p₂.1)
    (hcov : ∀ t, covers (p₁ :: r₁) t → covers (p₂ :: r₂) t) : p₁.2 ≤ p₂.2 := by
  by_contra hlt
  push_neg at hlt
  have hc : covers (p₁ :: r₁) p₂.2 := (covers_cons _ _ _).mpr (Or.inl ⟨by omega, by omega⟩)
  have hc₂ := hcov p₂.2 hc
  rw [covers_cons] at hc₂
  rcases hc₂ with h | ⟨q, hq, hq₁, hq₂⟩
  · omega
  · have := hhead₂ q hq
    omega

theorem canonicalUnique : ∀ (l₁ l₂ : List (Int × Int)), canonical l₁ → canonical l₂ →
    (∀ t, covers l₁ t ↔ covers l₂ t) → l₁ = l₂ := by
  intro l₁
  induction l₁ with
  | nil =>
    intro l₂ _ hc₂ hcov
    match l₂ with
    | [] => rfl
    | p :: r =>
      exfalso
      have hp : covers (p :: r) p.1 := by
        rw [covers_cons]
        exact Or.inl ⟨le_rfl, hc₂.2 p (List.mem_cons_self p r)⟩
      exact (covers_nil p.1) ((hcov p.1).mpr hp)
  | cons p₁ r₁ ih =>
    intro l₂ hc₁ hc₂ hcov
    match l₂ with
    | [] =>
      exfalso
      have hp : covers (p₁ :: r₁) p₁.1 := by
        rw [covers_cons]
        exact Or.inl ⟨le_rfl, hc₁.2 p₁ (List.mem_cons_self p₁ r₁)⟩
      exact (covers_nil p₁.1) ((hcov p₁.1).mp hp)
    | p₂ :: r₂ =>
      have hp₁ : p₁.1 < p₁.2 := hc₁.2 p₁ (List.mem_cons_self p₁ r₁)
      have hp₂ : p₂.1 < p₂.2 := hc₂.2 p₂ (List.mem_cons_self p₂ r₂)
      have hprop₁ : ∀ p ∈ r₁, p.1 < p.2 := fun p hp => hc₁.2 p (List.mem_cons_of_mem p₁ hp)
      have hprop₂ : ∀ p ∈ r₂, p.1 < p.2 := fun p hp => hc₂.2 p (List.mem_cons_of_mem p₂ hp)
      have hhead₁ : ∀ p ∈ r₁, p₁.2 < p.1 := by
        have := chain_sep_head r₁ p₁.1 p₁.2 (by simpa using hc₁.1) hprop₁
        exact this
      have hhead₂ : ∀ p ∈ r₂, p₂.2 < p.1 := by
        have := chain_sep_head r₂ p₂.1 p₂.2 (by simpa using hc₂.1) hprop₂
        exact this
      -- the two heads start together
      have hs : p₁.1 = p₂.1 := by
        have h₁ : covers (p₂ :: r₂) p₁.1 := (hcov p₁.1).mp (by
          rw [covers_cons]; exact Or.inl ⟨le_rfl, hp₁⟩)
        have h₂ : covers (p₁ :: r₁) p₂.1 := (hcov p₂.1).mpr (by
          rw [covers_cons]; exact Or.inl ⟨le_rfl, hp₂⟩)
        rw [covers_cons] at h₁ h₂
        rcases h₁ with h₁ | h₁
        · rcases h₂ with h₂ | h₂
          · omega
          · obtain ⟨q, hq, hq₁, hq₂⟩ := h₂
            have := hhead₁ q hq
            omega
        · obtain ⟨q, hq, hq₁, hq₂⟩ := h₁
          have := hhead₂ q hq
          rcases h₂ with h₂ | h₂
          · omega
          · obtain ⟨q', hq', hq₁', hq₂'⟩ := h₂
            have := hhead₁ q' hq'
            omega
      -- the two heads end together
      have he : p₁.2 = p₂.2 := by
        refine le_antisymm ?_ ?_
        · exact canonicalHeadEnd p₁ p₂ r₁ r₂ hp₁ hp₂ hhead₂ hs (fun t => (hcov t).mp)
        · exact canonicalHeadEnd p₂ p₁ r₂ r₁ hp₂ hp₁ hhead₁ hs.symm (fun t => (hcov t).mpr)
      -- the tails cover the same instants
      have htails : ∀ t, covers r₁ t ↔ covers r₂ t := by
        intro t
        constructor
        · intro hc
          obtain ⟨q, hq, hq₁, hq₂⟩ := hc
          have ht : p₁.2 < t := lt_of_lt_of_le (hhead₁ q hq) hq₁
          have h2 : covers (p₂ :: r₂) t :=
            (hcov t).mp ((covers_cons _ _ _).mpr (Or.inr ⟨q, hq, hq₁, hq₂⟩) : covers (p₁ :: r₁) t)
          rw [covers_cons] at h2
          rcases h2 with h2 | h2
          · omega
          · exact h2
        · intro hc
          obtain ⟨q, hq, hq₁, hq₂⟩ := hc
          have ht : p₂.2 < t := lt_of_lt_of_le (hhead₂ q hq) hq₁
          have h2 : covers (p₁ :: r₁) t :=
            (hcov t).mpr ((covers_cons _ _ _).mpr (Or.inr ⟨q, hq, hq₁, hq₂⟩) : covers (p₂ :: r₂) t)
          rw [covers_cons] at h2
          rcases h2 with h2 | h2
          · omega
          · exact h2
      have htl : r₁ = r₂ :=
        ih r₂ ⟨hc₁.1.tail, hprop₁⟩ ⟨hc₂.1.tail, hprop₂⟩ htails
      have hpeq : p₁ = p₂ := Prod.ext hs he
      rw [hpeq, htl]

theorem selectSwap_inj (l : List (Int × Int)) : ∀ x : Int × Int,
    selectSwap (inj x) (l.map inj) = (inj (selectP x l).1, ((selectP x l).2).map inj) := by
  induction l with
  | nil => intro x; simp [selectSwap, selectP]
  | cons y rest ih =>
    intro x
    rw [List.map_cons, selectSwap, selectP]
    simp only [tiStart_inj]
    split_ifs with h
    · simp [ih y]
    · simp [ih x]

theorem sortLoop_inj : ∀ (n : Nat) (l : List (Int × Int)),
    sortLoop n (l.map inj) = (sortLoopP n l).map inj := by
  intro n
  induction n with
  | zero => intro l; rfl
  | succ n ih =>
    intro l
    match l with
    | [] => rfl
    | x :: xs =>
      rw [List.map_cons, sortLoop, sortLoopP, selectSwap_inj xs x, List.map_cons]
      rw [show (inj (selectP x xs).1, ((selectP x xs).2).map inj).1 = inj (selectP x xs).1 from rfl]
      rw [show (inj (selectP x xs).1, ((selectP x xs).2).map inj).2 = ((selectP x xs).2).map inj from rfl]
      rw [ih (selectP x xs).2]

theorem sortChunks_inj (l : List (Int × Int)) :
    sortChunks (l.map inj) = (sortP l).map inj := by
  rw [sortChunks, sortP, List.length_map, sortLoop_inj]

theorem mergeLoop_inj : ∀ (l : List (Int × Int)) (cur : Int × Int),
    mergeLoop cur (l.map inj) = (mergeLoopP cur l).map inj := by
  intro l
  induction l with
  | nil => intro cur; simp [mergeLoop, mergeLoopP, inj]
  | cons next rest ih =>
    intro cur
    rw [List.map_cons, mergeLoop, mergeLoopP]
    simp only [tiStart_inj, tiEnd_inj]
    split_ifs with h h2
    · rw [ih (next.1, next.2)]
      rfl
    · exact ih _
    · exact ih _

theorem mergeOverlappingChunks_inj (l : List (Int × Int)) :
    mergeOverlappingChunks (l.map inj) = (mergeP l).map inj := by
  match l with
  | [] => rfl
  | c :: rest =>
    rw [List.map_cons, mergeOverlappingChunks, mergeP]
    simp only [tiStart_inj, tiEnd_inj]
    rw [mergeLoop_inj]

theorem groupLoop_inj : ∀ (l : List (Int × Int)) (s e : Int),
    groupLoop s e (l.map inj) = (groupLoopP s e l).map inj := by
  intro l
  induction l with
  | nil => intro s e; rfl
  | cons c rest ih =>
    intro s e
    rw [List.map_cons, groupLoop, groupLoopP]
    simp only [tiStart_inj, tiEnd_inj]
    split_ifs with h
    · rw [ih]
    · rw [List.map_cons, ih]
      rfl

theorem groupConsecutiveMergedChunks_inj (l : List (Int × Int)) :
    groupConsecutiveMergedChunks (l.map inj) = (groupP l).map inj := by
  match l with
  | [] => rfl
  | c :: rest =>
    rw [List.map_cons, groupConsecutiveMergedChunks, groupP]
    simp only [tiStart_inj, tiEnd_inj]
    rw [groupLoop_inj]

theorem groupConsecutiveChunks_inj (l : List (Int × Int)) :
    groupConsecutiveChunks (l.map inj) = (groupPipeP l).map inj := by
  match l with
  | [] => rfl
  | c :: rest =>
    rw [groupConsecutiveChunks, if_neg (by simp)]
    rw [groupPipeP, ← groupConsecutiveMergedChunks_inj, ← mergeOverlappingChunks_inj, ← sortChunks_inj]

theorem specMergeLoop_eq_mergeLoopP : ∀ (l : List (Int × Int)) (x : Int × Int),
    specMergeLoop x l = mergeLoopP x l := by
  intro l
  induction l with
  | nil => intro x; rfl
  | cons y rest ih =>
    intro x
    rw [specMergeLoop, mergeLoopP]
    by_cases h : y.1 ≤ x.2
    · rw [if_pos h, if_pos (by omega)]
      have hmax : max x.2 y.2 = if x.2 < y.2 then y.2 else x.2 := by
        rcases lt_or_le x.2 y.2 with h2 | h2
        · rw [if_pos h2, max_eq_right h2.le]
        · rw [if_neg (not_lt.mpr h2), max_eq_left h2]
      rw [hmax, ih]
    · rw [if_neg h, if_neg (by omega)]
      rw [ih]

theorem specMergeRanges_eq_mergeP (l : List (Int × Int)) : specMergeRanges l = mergeP l := by
  match l with
  | [] => rfl
  | x :: rest =>
    rw [specMergeRanges, mergeP, specMergeLoop_eq_mergeLoopP]

theorem pairChunks_proper (p : Int × Int) : ∀ q ∈ pairChunks p, q.1 < q.2 := by
  intro q hq
  unfold pairChunks at hq
  simp only [List.mem_map, List.mem_range] at hq
  obtain ⟨i, _, rfl⟩ := hq
  unfold chunkDuration
  dsimp only
  omega

theorem pairChunks_covers (p : Int × Int) (hp₁ : p.1 % chunkDuration = 0)
    (hp₂ : p.2 % chunkDuration = 0) (t : Int) :
    covers (pairChunks p) t ↔ (p.1 ≤ t ∧ t < p.2) := by
  unfold covers pairChunks
  simp only [List.mem_map, List.mem_range]
  constructor
  · rintro ⟨q, ⟨i, hi, rfl⟩, h₁, h₂⟩
    dsimp only at h₁ h₂
    unfold chunkDuration at *
    omega
  · rintro ⟨h₁, h₂⟩
    refine ⟨_, ⟨((t - p.1) / chunkDuration).toNat, ?_, rfl⟩, ?_, ?_⟩ <;>
      (unfold chunkDuration at *; try dsimp only) <;> omega

theorem pairChunksAll_proper (l : List (Int × Int)) : ∀ q ∈ pairChunksAll l, q.1 < q.2 := by
  intro q hq
  unfold pairChunksAll at hq
  rw [List.mem_flatMap] at hq
  obtain ⟨p, _, hq⟩ := hq
  exact pairChunks_proper p q hq

theorem pairChunksAll_covers (l : List (Int × Int))
    (ha : ∀ p ∈ l, p.1 % chunkDuration = 0 ∧ p.2 % chunkDuration = 0) (t : Int) :
    covers (pairChunksAll l) t ↔ covers l t := by
  unfold pairChunksAll covers
  simp only [List.mem_flatMap]
  constructor
  · rintro ⟨q, ⟨p, hp, hq⟩, h₁, h₂⟩
    refine ⟨p, hp, ?_⟩
    have := (pairChunks_covers p (ha p hp).1 (ha p hp).2 t).mp ⟨q, hq, h₁, h₂⟩
    exact this
  · rintro ⟨p, hp, h₁, h₂⟩
    obtain ⟨q, hq, hq₁, hq₂⟩ := (pairChunks_covers p (ha p hp).1 (ha p hp).2 t).mpr ⟨h₁, h₂⟩
    exact ⟨q, ⟨p, hp, hq⟩, hq₁, hq₂⟩

theorem convert_map_inj (ps : List (Int × Int))
    (ha : ∀ p ∈ ps, p.1 % chunkDuration = 0 ∧ p.2 % chunkDuration = 0) :
    convertIntervalsIntoChunks (ps.map inj) = .ok ((pairChunksAll ps).map inj) := by
  induction ps with
  | nil => rfl
  | cons p rest ih =>
    obtain ⟨h1, h2⟩ := ha p (List.mem_cons_self p rest)
    have e1 : minuteOf p.1 % 15 = 0 := minute_aligned h1
    have e2 : minuteOf p.2 % 15 = 0 := minute_aligned h2
    rw [List.map_cons, convertIntervalsIntoChunks]
    rw [if_neg (by simp [inj])]
    simp only [tiStart_inj, tiEnd_inj]
    rw [if_neg (by simp [e1]), if_neg (by simp [e2])]
    rw [ih (fun q hq => ha q (List.mem_cons_of_mem p hq))]
    rw [chunkWalk_eq_pairChunks h1 h2]
    rw [show pairChunksAll (p :: rest) = pairChunks p ++ pairChunksAll rest from by
      unfold pairChunksAll; rw [List.flatMap_cons]]
    rw [List.map_append]

theorem groupPipeP_main (l : List (Int × Int)) (hp : ∀ p ∈ l, p.1 < p.2) :
    canonical (groupPipeP l) ∧ ∀ t, covers (groupPipeP l) t ↔ covers l t := by
  have hperm := sortP_perm l
  have hp' : ∀ p ∈ sortP l, p.1 < p.2 := fun p h => hp p (hperm.subset h)
  obtain ⟨hc, hcov⟩ := mergeP_main (sortP l) (sortP_sorted l) hp'
  rw [groupPipeP, groupP_id _ hc.1]
  exact ⟨hc, fun t => (hcov t).trans (covers_of_perm hperm t)⟩

theorem specSortMerge_main (ps : List (Int × Int)) (hp : ∀ p ∈ ps, p.1 < p.2) :
    canonical (specSortMerge ps) ∧ ∀ t, covers (specSortMerge ps) t ↔ covers ps t := by
  have hperm := List.perm_insertionSort leStart ps
  have hsorted : (ps.insertionSort leStart).Pairwise leStart :=
    List.sorted_insertionSort leStart ps
  have hp' : ∀ p ∈ ps.insertionSort leStart, p.1 < p.2 := fun p h => hp p (hperm.subset h)
  obtain ⟨hc, hcov⟩ := mergeP_main _ hsorted hp'
  rw [specSortMerge, specMergeRanges_eq_mergeP]
  exact ⟨hc, fun t => (hcov t).trans (covers_of_perm hperm t)⟩

theorem covers_map_inj (l : List (Int × Int)) (t : Int) :
    (∃ b ∈ l.map inj, tiStart b ≤ t ∧ t < tiEnd b) ↔ covers l t := by
  unfold covers
  constructor
  · rintro ⟨b, hb, h₁, h₂⟩
    rw [List.mem_map] at hb
    obtain ⟨q, hq, rfl⟩ := hb
    exact ⟨q, hq, by simpa using h₁, by simpa using h₂⟩
  · rintro ⟨q, hq, h₁, h₂⟩
    exact ⟨inj q, List.mem_map_of_mem inj hq, by simpa, by simpa⟩

/-!
Claim theorems.
-/

/-- C1: for a single input interval whose start and end are exactly
aligned to the 15-minute grid (minute-of-hour in 0/15/30/45, zero
seconds and sub-seconds, expressed as nanosecond timestamps divisible by
chunkDuration) and whose duration is k positive 15-minute steps,
toBlocks (convertIntervalsIntoChunks) returns exactly k blocks, each
exactly 15 minutes long, contiguous, starting at the interval start,
ending at the interval end, and covering exactly the interval with no
gaps or overlaps. -/
theorem toBlocks_block_count (s : Int) (k : Nat)
    (haligned : s % chunkDuration = 0) (hk : 1 ≤ k) :
    ∃ bs, convertIntervalsIntoChunks [[s, s + chunkDuration * (k : Int)]] = .ok bs ∧
      bs.length = k ∧
      (∀ b ∈ bs, tiEnd b - tiStart b = chunkDuration) ∧
      bs.Chain' (fun b₁ b₂ => tiEnd b₁ = tiStart b₂) ∧
      bs.head?.map tiStart = some s ∧
      bs.getLast?.map tiEnd = some (s + chunkDuration * (k : Int)) ∧
      (∀ t : Int, (∃ b ∈ bs, tiStart b ≤ t ∧ t < tiEnd b) ↔
        (s ≤ t ∧ t < s + chunkDuration * (k : Int))) ∧
      bs.Pairwise (fun b₁ b₂ => tiEnd b₁ ≤ tiStart b₂) := by
  have he : (s + chunkDuration * (k : Int)) % chunkDuration = 0 := by
    unfold chunkDuration at *
    omega
  have hconv := convert_map_inj [(s, s + chunkDuration * (k : Int))]
    (by intro p hp; simp only [List.mem_singleton] at hp; subst hp; exact ⟨haligned, he⟩)
  have hall : pairChunksAll [(s, s + chunkDuration * (k : Int))] =
      pairChunks (s, s + chunkDuration * (k : Int)) := by
    unfold pairChunksAll
    simp
  have hknat : (((s, s + chunkDuration * (k : Int)).2 - (s, s + chunkDuration * (k : Int)).1) /
      chunkDuration).toNat = k := by
    dsimp only
    unfold chunkDuration
    omega
  have hpc : pairChunks (s, s + chunkDuration * (k : Int)) =
      (List.range k).map
        (fun i : Nat => (s + chunkDuration * (i : Int), s + chunkDuration * ((i : Int) + 1))) := by
    unfold pairChunks
    rw [hknat]
  rw [hall, hpc] at hconv
  have hmapinj : ∀ l : List (Int × Int), l.map inj = l.map inj := fun _ => rfl
  refine ⟨_, (by simpa [List.map_cons] using hconv), ?_, ?_, ?_, ?_, ?_, ?_, ?_⟩
  · simp
  · intro b hb
    simp only [List.mem_map, List.mem_range] at hb
    obtain ⟨i, _, rfl⟩ := hb
    simp only [Function.comp_apply, tiStart_inj, tiEnd_inj]
    ring
  · rw [List.chain'_map, List.chain'_iff_get]
    intro i hi
    simp only [List.get_eq_getElem, List.getElem_range, Function.comp_apply,
      tiStart_inj, tiEnd_inj]
    push_cast
    ring
  · obtain ⟨m, rfl⟩ : ∃ m, k = m + 1 := ⟨k - 1, by omega⟩
    rw [List.range_succ_eq_map]
    simp
  · obtain ⟨m, rfl⟩ : ∃ m, k = m + 1 := ⟨k - 1, by omega⟩
    rw [List.range_succ, List.map_append]
    simp only [List.map_cons, List.map_nil, List.getLast?_concat, Function.comp_apply,
      tiEnd_inj, Option.map_some']
    push_cast
    ring_nf
  · intro t
    rw [← List.map_map]
    rw [covers_map_inj _ t, ← hpc, pairChunks_covers _ haligned he t]
  · rw [List.pairwise_map]
    refine (List.pairwise_lt_range k).imp ?_
    intro i j hij
    simp only [Function.comp_apply, tiStart_inj, tiEnd_inj]
    unfold chunkDuration
    omega

/-- C1 witness at s = 0, k = 2. -/
theorem toBlocks_block_count_witness :
    ((0 : Int) % chunkDuration = 0 ∧ 1 ≤ 2) ∧
      (∃ bs, convertIntervalsIntoChunks [[0, 0 + chunkDuration * ((2 : Nat) : Int)]] = .ok bs ∧
        bs.length = 2 ∧
        (∀ b ∈ bs, tiEnd b - tiStart b = chunkDuration) ∧
        bs.Chain' (fun b₁ b₂ => tiEnd b₁ = tiStart b₂) ∧
        bs.head?.map tiStart = some 0 ∧
        bs.getLast?.map tiEnd = some (0 + chunkDuration * ((2 : Nat) : Int)) ∧
        (∀ t : Int, (∃ b ∈ bs, tiStart b ≤ t ∧ t < tiEnd b) ↔
          (0 ≤ t ∧ t < 0 + chunkDuration * ((2 : Nat) : Int))) ∧
        bs.Pairwise (fun b₁ b₂ => tiEnd b₁ ≤ tiStart b₂)) :=
  ⟨⟨by decide, by decide⟩, toBlocks_block_count 0 2 (by decide) (by decide)⟩

theorem canonical_pairwise : ∀ l : List (Int × Int), canonical l → l.Pairwise separated := by
  intro l
  induction l with
  | nil => intro _; exact List.Pairwise.nil
  | cons p r ih =>
    intro h
    refine List.pairwise_cons.mpr ⟨?_, ih ⟨h.1.tail, fun q hq => h.2 q (List.mem_cons_of_mem p hq)⟩⟩
    intro q hq
    exact chain_sep_head r p.1 p.2 (by simpa using h.1)
      (fun q' hq' => h.2 q' (List.mem_cons_of_mem p hq')) q hq

theorem eq_map_inj_of_shape : ∀ l : List TimeInterval, (∀ c ∈ l, c.length = 2) →
    l = (l.map fun c => (tiStart c, tiEnd c)).map inj := by
  intro l
  induction l with
  | nil => intro _; rfl
  | cons c rest ih =>
    intro h
    obtain ⟨a, b, rfl⟩ := List.length_eq_two.mp (h c (List.mem_cons_self c rest))
    rw [List.map_cons, List.map_cons,
      ← ih (fun c' hc' => h c' (List.mem_cons_of_mem _ hc'))]
    rfl

/-- C2: for a list of pairwise-disjoint ranges whose endpoints all lie
on the 15-minute grid (nanosecond timestamps divisible by
chunkDuration), toRanges applied to toBlocks — groupConsecutiveChunks
after convertIntervalsIntoChunks — returns exactly the input ranges
sorted ascending by start with adjacent or overlapping ranges merged
into single spanning ranges (the spec-modelled specSortMerge). -/
theorem toBlocks_toRanges_roundtrip (ps : List (Int × Int))
    (hproper : ∀ p ∈ ps, p.1 < p.2)
    (haligned : ∀ p ∈ ps, p.1 % chunkDuration = 0 ∧ p.2 % chunkDuration = 0)
    (_hdisjoint : ps.Pairwise fun p q => p.2 ≤ q.1 ∨ q.2 ≤ p.1) :
    ∃ bs, convertIntervalsIntoChunks (ps.map inj) = .ok bs ∧
      groupConsecutiveChunks bs = (specSortMerge ps).map inj := by
  refine ⟨_, convert_map_inj ps haligned, ?_⟩
  rw [groupConsecutiveChunks_inj]
  obtain ⟨hcan1, hcov1⟩ := groupPipeP_main (pairChunksAll ps) (pairChunksAll_proper ps)
  obtain ⟨hcan2, hcov2⟩ := specSortMerge_main ps hproper
  have hcov : ∀ t, covers (groupPipeP (pairChunksAll ps)) t ↔ covers (specSortMerge ps) t :=
    fun t => (hcov1 t).trans ((pairChunksAll_covers ps haligned t).trans (hcov2 t).symm)
  rw [canonicalUnique _ _ hcan1 hcan2 hcov]

/-- C2 witness: three aligned disjoint ranges given out of order, two of
them adjacent. -/
theorem toBlocks_toRanges_roundtrip_witness :
    ((∀ p ∈ [((3600000000000 : Int), (4500000000000 : Int)), (0, 900000000000),
        (900000000000, 1800000000000)], p.1 < p.2) ∧
      (∀ p ∈ [((3600000000000 : Int), (4500000000000 : Int)), (0, 900000000000),
        (900000000000, 1800000000000)], p.1 % chunkDuration = 0 ∧ p.2 % chunkDuration = 0) ∧
      ([((3600000000000 : Int), (4500000000000 : Int)), (0, 900000000000),
        (900000000000, 1800000000000)].Pairwise fun p q => p.2 ≤ q.1 ∨ q.2 ≤ p.1)) ∧
      ∃ bs, convertIntervalsIntoChunks
          ([((3600000000000 : Int), (4500000000000 : Int)), (0, 900000000000),
            (900000000000, 1800000000000)].map inj) = .ok bs ∧
        groupConsecutiveChunks bs =
          (specSortMerge [((3600000000000 : Int), (4500000000000 : Int)), (0, 900000000000),
            (900000000000, 1800000000000)]).map inj :=
  ⟨⟨by decide, by decide, by decide⟩,
    toBlocks_toRanges_roundtrip _ (by decide) (by decide) (by decide)⟩

/-- C3: toRanges (groupConsecutiveChunks) maps the empty list to the
empty list, and on any list of 2-element non-degenerate blocks (in any
order, possibly duplicated or overlapping) its output is sorted strictly
ascending by start, pairwise disjoint as sets of instants, and
non-adjacent: no output range ends exactly where another starts. -/
theorem toRanges_canonical :
    groupConsecutiveChunks [] = [] ∧
    ∀ chunks : List TimeInterval,
      (∀ c ∈ chunks, c.length = 2 ∧ tiStart c < tiEnd c) →
      ((groupConsecutiveChunks chunks).Pairwise fun r₁ r₂ => tiStart r₁ < tiStart r₂) ∧
      ((groupConsecutiveChunks chunks).Pairwise fun r₁ r₂ =>
        ∀ t : Int, ¬ (tiStart r₁ ≤ t ∧ t < tiEnd r₁ ∧ tiStart r₂ ≤ t ∧ t < tiEnd r₂)) ∧
      ((groupConsecutiveChunks chunks).Pairwise fun r₁ r₂ =>
        tiEnd r₁ ≠ tiStart r₂ ∧ tiEnd r₂ ≠ tiStart r₁) := by
  refine ⟨rfl, ?_⟩
  intro chunks hc
  have hshape := eq_map_inj_of_shape chunks (fun c hc' => (hc c hc').1)
  have hgc : groupConsecutiveChunks chunks =
      (groupPipeP (chunks.map fun c => (tiStart c, tiEnd c))).map inj := by
    conv_lhs => rw [hshape]
    rw [groupConsecutiveChunks_inj]
  have hqproper : ∀ p ∈ chunks.map fun c => (tiStart c, tiEnd c), p.1 < p.2 := by
    intro p hp
    rw [List.mem_map] at hp
    obtain ⟨c, hcm, rfl⟩ := hp
    exact (hc c hcm).2
  obtain ⟨hcanon, _⟩ := groupPipeP_main (chunks.map fun c => (tiStart c, tiEnd c)) hqproper
  have hsep := canonical_pairwise _ hcanon
  have hprop := hcanon.2
  refine ⟨?_, ?_, ?_⟩ <;> rw [hgc, List.pairwise_map]
  · refine hsep.imp_of_mem ?_
    intro a b ha hb hab
    have h₁ := hprop a ha
    simp only [tiStart_inj, separated] at *
    omega
  · refine hsep.imp_of_mem ?_
    intro a b ha hb hab
    intro t
    simp only [tiStart_inj, tiEnd_inj, separated] at *
    omega
  · refine hsep.imp_of_mem ?_
    intro a b ha hb hab
    have h₁ := hprop a ha
    have h₂ := hprop b hb
    simp only [tiStart_inj, tiEnd_inj, separated] at *
    omega

/-- C3 witness: two out-of-order adjacent blocks. -/
theorem toRanges_canonical_witness :
    (∀ c ∈ [[(900000000000 : Int), 1800000000000], [0, 900000000000]],
      c.length = 2 ∧ tiStart c < tiEnd c) ∧
    ((groupConsecutiveChunks [[(900000000000 : Int), 1800000000000],
        [0, 900000000000]]).Pairwise fun r₁ r₂ => tiStart r₁ < tiStart r₂) ∧
    ((groupConsecutiveChunks [[(900000000000 : Int), 1800000000000],
        [0, 900000000000]]).Pairwise fun r₁ r₂ =>
      ∀ t : Int, ¬ (tiStart r₁ ≤ t ∧ t < tiEnd r₁ ∧ tiStart r₂ ≤ t ∧ t < tiEnd r₂)) ∧
    ((groupConsecutiveChunks [[(900000000000 : Int), 1800000000000],
        [0, 900000000000]]).Pairwise fun r₁ r₂ =>
      tiEnd r₁ ≠ tiStart r₂ ∧ tiEnd r₂ ≠ tiStart r₁) :=
  ⟨by decide, toRanges_canonical.2 _ (by decide)⟩

theorem removeLoop_spec (rs re : Int) (hrsre : rs < re) :
    ∀ intervals : List TimeInterval,
    (∀ i ∈ intervals, i.length = 2 ∧ tiStart i < tiEnd i) →
    removeLoop rs re intervals =
      intervals.flatMap fun i => specSubtractOne rs re (tiStart i) (tiEnd i) := by
  intro intervals
  induction intervals with
  | nil => intro _; rfl
  | cons i rest ih =>
    intro hshape
    obtain ⟨hlen, hlt⟩ := hshape i (List.mem_cons_self i rest)
    obtain ⟨a, b, rfl⟩ := List.length_eq_two.mp hlen
    simp only [tiStart_cons₂, tiEnd_cons₂] at hlt
    rw [removeLoop, if_neg (by simp)]
    simp only [tiStart_cons₂, tiEnd_cons₂, gt_iff_lt]
    rw [List.flatMap_cons]
    have ih' := ih (fun i' hi' => hshape i' (List.mem_cons_of_mem _ hi'))
    simp only [tiStart_cons₂, tiEnd_cons₂]
    by_cases hkeep : b < rs ∨ re < a
    · rw [if_pos hkeep, specSubtractOne, if_pos (by omega), ih']
      rfl
    · rw [if_neg hkeep]
      by_cases h1 : b ≤ rs ∨ re ≤ a
      · rw [specSubtractOne, if_pos h1]
        rcases h1 with h1 | h1
        · have hb : b = rs := by omega
          rw [if_pos (by omega : a < rs), if_neg (by omega : ¬ re < b), ih']
          subst hb
          simp
        · have ha : a = re := by omega
          rw [if_neg (by omega : ¬ a < rs), if_pos (by omega : re < b), ih']
          subst ha
          simp
      · rw [specSubtractOne, if_neg h1]
        by_cases h2 : rs ≤ a ∧ b ≤ re
        · rw [if_pos h2, if_neg (by omega), if_neg (by omega), ih']
          simp
        · rw [if_neg h2, ih']

/-- C4: update subtraction (removeTimeInterval).  For any list of
2-element non-degenerate ranges and any 2-element removal window, each
range contributes exactly the sub-ranges described by the spec: kept
unchanged when it does not overlap the window (including mere edge
touching), dropped when fully inside it, and split into the surviving
pieces before and/or after it otherwise (specSubtractOne); and the
remove phase of UpdateAvailability applies removals sequentially in
input order, each operating on the previous result (a left fold). -/
theorem removeTimeInterval_spec :
    (∀ (intervals : List TimeInterval) (rs re : Int), rs < re →
      (∀ i ∈ intervals, i.length = 2 ∧ tiStart i < tiEnd i) →
      removeTimeInterval intervals [rs, re] =
        intervals.flatMap fun i => specSubtractOne rs re (tiStart i) (tiEnd i)) ∧
    ∀ (cur removes : List TimeInterval),
      applyRemovals cur removes = removes.foldl removeTimeInterval cur := by
  constructor
  · intro intervals rs re hrsre hshape
    rw [removeTimeInterval, if_neg (by simp)]
    simp only [tiStart_cons₂, tiEnd_cons₂]
    exact removeLoop_spec rs re hrsre intervals hshape
  · intro cur removes
    induction removes generalizing cur with
    | nil => rfl
    | cons r rest ih =>
      rw [applyRemovals, List.foldl_cons, ih]

/-- C4 witness: subtracting 09:15-09:45 from 09:00-10:00 (nanoseconds
within the day) leaves 09:00-09:15 and 09:45-10:00. -/
theorem removeTimeInterval_spec_witness :
    ((32400000000000 : Int) < 36000000000000 ∧ (33300000000000 : Int) < 35100000000000 ∧
      (∀ i ∈ [[(32400000000000 : Int), 36000000000000]], i.length = 2 ∧ tiStart i < tiEnd i)) ∧
    removeTimeInterval [[(32400000000000 : Int), 36000000000000]]
        [33300000000000, 35100000000000] =
      [[32400000000000, 33300000000000], [35100000000000, 36000000000000]] :=
  ⟨⟨by decide, by decide, by decide⟩,
    (removeTimeInterval_spec.1 [[(32400000000000 : Int), 36000000000000]]
      33300000000000 35100000000000 (by decide) (by decide)).trans (by rfl)⟩

/-- C5 counterexample: the interval from 00:00:00 to 00:15:30 (in
nanoseconds) passes validation — both minute-of-hour values are 0 and
15 — yet the block walk emits two blocks and the last one ends at
00:30:00, not at the interval end 00:15:30: for accepted input the walk
can overshoot, refuting the claim as stated. -/
theorem toBlocks_overshoot_counterexample :
    convertIntervalsIntoChunks [[0, 930000000000]] =
      .ok [[0, 900000000000], [900000000000, 1800000000000]] ∧
    ([[(0 : Int), 900000000000], [900000000000, 1800000000000]] : List TimeInterval).getLast?.map
        tiEnd ≠ some 930000000000 := by
  have hw : chunkWalk 0 930000000000 = [[0, 900000000000], [900000000000, 1800000000000]] := by
    rw [chunkWalk, if_pos (by decide)]
    norm_num
    rw [chunkWalk, if_pos (by decide)]
    norm_num
    rw [chunkWalk_of_le (by decide)]
    simp [chunkDuration]
  constructor
  · calc convertIntervalsIntoChunks [[0, 930000000000]]
        = .ok (chunkWalk 0 930000000000 ++ []) := rfl
      _ = .ok [[0, 900000000000], [900000000000, 1800000000000]] := by rw [hw, List.append_nil]
  · decide

/-- C5 amended: for an accepted interval whose start and end moreover
have zero seconds and sub-seconds (nanosecond timestamps divisible by
chunkDuration), every emitted block ends at or before the interval end,
and the last emitted block (when any exists) ends exactly at the
interval end. -/
theorem toBlocks_last_end_aligned (s e : Int)
    (hs : s % chunkDuration = 0) (he : e % chunkDuration = 0) :
    ∃ bs, convertIntervalsIntoChunks [[s, e]] = .ok bs ∧
      (∀ b ∈ bs, tiEnd b ≤ e) ∧
      ∀ b, bs.getLast? = some b → tiEnd b = e := by
  have hconv := convert_map_inj [(s, e)]
    (by intro p hp; simp only [List.mem_singleton] at hp; subst hp; exact ⟨hs, he⟩)
  have hall : pairChunksAll [(s, e)] = pairChunks (s, e) := by
    unfold pairChunksAll
    simp
  rw [hall] at hconv
  refine ⟨(pairChunks (s, e)).map inj, by simpa [inj] using hconv, ?_, ?_⟩
  · intro b hb
    rw [List.mem_map] at hb
    obtain ⟨q, hq, rfl⟩ := hb
    unfold pairChunks at hq
    simp only [List.mem_map, List.mem_range] at hq
    obtain ⟨i, hi, rfl⟩ := hq
    simp only [tiEnd_inj]
    unfold chunkDuration at *
    omega
  · intro b hb
    rcases Nat.eq_zero_or_pos (((e - s) / chunkDuration).toNat) with h0 | hpos
    · unfold pairChunks at hb
      rw [show ((s, e).2 - (s, e).1) = e - s from rfl, h0] at hb
      simp at hb
    · obtain ⟨m, hm⟩ : ∃ m, ((e - s) / chunkDuration).toNat = m + 1 :=
        ⟨((e - s) / chunkDuration).toNat - 1, by omega⟩
      unfold pairChunks at hb
      rw [show ((s, e).2 - (s, e).1) = e - s from rfl, hm, List.map_map, List.range_succ,
        List.map_append] at hb
      simp only [List.map_cons, List.map_nil, List.getLast?_concat, Option.some.injEq] at hb
      subst hb
      simp only [Function.comp_apply, tiEnd_inj]
      unfold chunkDuration at *
      omega

/-- C5 amended witness at the aligned interval 00:00 to 00:30. -/
theorem toBlocks_last_end_aligned_witness :
    ((0 : Int) % chunkDuration = 0 ∧ (1800000000000 : Int) % chunkDuration = 0) ∧
    (∃ bs, convertIntervalsIntoChunks [[0, 1800000000000]] = .ok bs ∧
      (∀ b ∈ bs, tiEnd b ≤ 1800000000000) ∧
      ∀ b, bs.getLast? = some b → tiEnd b = 1800000000000) :=
  ⟨⟨by decide, by decide⟩, toBlocks_last_end_aligned 0 1800000000000 (by decide) (by decide)⟩

/-- C7 counterexample: an interval with three elements has arity
different from 2, yet convertIntervalsIntoChunks accepts it — the
length check only rejects fewer than two elements, and the extra third
element is ignored — refuting the claim that any wrong arity fails with
MalformedInterval. -/
theorem toBlocks_arity_three_accepted :
    ([(0 : Int), 900000000000, 123] : TimeInterval).length ≠ 2 ∧
    convertIntervalsIntoChunks [[0, 900000000000, 123]] = .ok [[0, 900000000000]] := by
  have hw : chunkWalk 0 900000000000 = [[0, 900000000000]] := by
    rw [chunkWalk, if_pos (by decide)]
    norm_num
    rw [chunkWalk_of_le (by decide)]
    simp [chunkDuration]
  constructor
  · decide
  · calc convertIntervalsIntoChunks [[0, 900000000000, 123]]
        = .ok (chunkWalk 0 900000000000 ++ []) := rfl
      _ = .ok [[0, 900000000000]] := by rw [hw, List.append_nil]

/-- C7 amended: an interval with fewer than two elements fails the call
with MalformedInterval (and hence no blocks), provided every earlier
interval passes the arity and boundary checks; intervals with more than
two elements are not rejected. -/
theorem toBlocks_malformed_lt_two (pre : List TimeInterval) (bad : TimeInterval)
    (post : List TimeInterval)
    (hpre : ∀ p ∈ pre, 2 ≤ p.length ∧ minuteOf (tiStart p) % 15 = 0 ∧
      minuteOf (tiEnd p) % 15 = 0)
    (hbad : bad.length < 2) :
    convertIntervalsIntoChunks (pre ++ bad :: post) = .error .malformedInterval := by
  induction pre with
  | nil =>
    rw [List.nil_append, convertIntervalsIntoChunks, if_pos hbad]
  | cons p pre' ih =>
    obtain ⟨hlen, h1, h2⟩ := hpre p (List.mem_cons_self p pre')
    rw [List.cons_append, convertIntervalsIntoChunks, if_neg (by omega)]
    dsimp only
    rw [if_neg (by simp [h1]), if_neg (by simp [h2])]
    rw [ih (fun q hq => hpre q (List.mem_cons_of_mem p hq))]

/-- C7 amended witness: a valid interval followed by a single-element
interval fails with MalformedInterval. -/
theorem toBlocks_malformed_lt_two_witness :
    ((∀ p ∈ [[(0 : Int), 900000000000]], 2 ≤ p.length ∧ minuteOf (tiStart p) % 15 = 0 ∧
        minuteOf (tiEnd p) % 15 = 0) ∧
      ([(5 : Int)] : TimeInterval).length < 2) ∧
    convertIntervalsIntoChunks [[(0 : Int), 900000000000], [5]] = .error .malformedInterval :=
  ⟨⟨by decide, by decide⟩,
    toBlocks_malformed_lt_two [[(0 : Int), 900000000000]] [5] [] (by decide) (by decide)⟩

/-- C6: convertIntervalsIntoChunks fails with an InvalidBoundary error —
carrying the offending field (start or end) and minute value — exactly
when some interval of at least two elements has a start or an end whose
minute-of-hour is not a multiple of 15, while every earlier interval
passes both the arity and the boundary checks; in particular a start
minute of 7 and an end minute of 50 are each rejected (and, the result
being an error, no blocks are produced). -/
theorem toBlocks_invalidBoundary_iff :
    (∀ intervals : List TimeInterval,
      (∃ err, convertIntervalsIntoChunks intervals = .error err ∧
        err.isInvalidBoundary = true) ↔
      (∃ pre bad post, intervals = pre ++ bad :: post ∧
        (∀ p ∈ pre, 2 ≤ p.length ∧ minuteOf (tiStart p) % 15 = 0 ∧
          minuteOf (tiEnd p) % 15 = 0) ∧
        2 ≤ bad.length ∧
        (minuteOf (tiStart bad) % 15 ≠ 0 ∨ minuteOf (tiEnd bad) % 15 ≠ 0))) ∧
    convertIntervalsIntoChunks [[420000000000, 0]] = .error (.invalidStartBoundary 7) ∧
    convertIntervalsIntoChunks [[0, 3000000000000]] = .error (.invalidEndBoundary 50) := by
  refine ⟨?_, rfl, rfl⟩
  intro intervals
  induction intervals with
  | nil =>
    constructor
    · rintro ⟨err, herr, _⟩
      simp [convertIntervalsIntoChunks] at herr
    · rintro ⟨pre, bad, post, habs, -⟩
      exact absurd habs (by simp)
  | cons i rest ih =>
    by_cases hlen : i.length < 2
    · have hc : convertIntervalsIntoChunks (i :: rest) = .error .malformedInterval := by
        rw [convertIntervalsIntoChunks, if_pos hlen]
      constructor
      · rintro ⟨err, herr, hinv⟩
        rw [hc] at herr
        obtain rfl : ConvErr.malformedInterval = err := by
          simpa using herr
        simp [ConvErr.isInvalidBoundary] at hinv
      · rintro ⟨pre, bad, post, heq, hpre, hblen, hbad⟩
        exfalso
        cases pre with
        | nil =>
          rw [List.nil_append] at heq
          obtain ⟨rfl, -⟩ := List.cons.inj heq
          omega
        | cons p pre' =>
          rw [List.cons_append] at heq
          obtain ⟨rfl, -⟩ := List.cons.inj heq
          have := (hpre i (List.mem_cons_self i pre')).1
          omega
    · by_cases hst : minuteOf (tiStart i) % 15 ≠ 0
      · have hc : convertIntervalsIntoChunks (i :: rest) =
            .error (.invalidStartBoundary (minuteOf (tiStart i))) := by
          rw [convertIntervalsIntoChunks, if_neg hlen]
          dsimp only
          rw [if_pos hst]
        constructor
        · intro _
          exact ⟨[], i, rest, by simp, by simp, by omega, Or.inl hst⟩
        · intro _
          exact ⟨_, hc, rfl⟩
      · by_cases hen : minuteOf (tiEnd i) % 15 ≠ 0
        · have hc : convertIntervalsIntoChunks (i :: rest) =
              .error (.invalidEndBoundary (minuteOf (tiEnd i))) := by
            rw [convertIntervalsIntoChunks, if_neg hlen]
            dsimp only
            rw [if_neg hst, if_pos hen]
          constructor
          · intro _
            exact ⟨[], i, rest, by simp, by simp, by omega, Or.inr hen⟩
          · intro _
            exact ⟨_, hc, rfl⟩
        · push_neg at hst hen
          have hc : convertIntervalsIntoChunks (i :: rest) =
              match convertIntervalsIntoChunks rest with
              | .error err => .error err
              | .ok more => .ok (chunkWalk (tiStart i) (tiEnd i) ++ more) := by
            rw [convertIntervalsIntoChunks, if_neg hlen]
            dsimp only
            rw [if_neg (by omega), if_neg (by omega)]
          constructor
          · rintro ⟨err, herr, hinv⟩
            rw [hc] at herr
            cases hrest : convertIntervalsIntoChunks rest with
            | ok more =>
              rw [hrest] at herr
              simp at herr
            | error err' =>
              rw [hrest] at herr
              dsimp only at herr
              obtain rfl : err' = err := by simpa using herr
              obtain ⟨pre, bad, post, heq, hpre, hblen, hbad⟩ := ih.mp ⟨err', hrest, hinv⟩
              refine ⟨i :: pre, bad, post, by rw [List.cons_append, heq], ?_, hblen, hbad⟩
              intro p hp
              rcases List.mem_cons.mp hp with rfl | hp
              · exact ⟨by omega, hst, hen⟩
              · exact hpre p hp
          · rintro ⟨pre, bad, post, heq, hpre, hblen, hbad⟩
            cases pre with
            | nil =>
              rw [List.nil_append] at heq
              obtain ⟨rfl, -⟩ := List.cons.inj heq
              exfalso
              rcases hbad with hbad | hbad <;> omega
            | cons p pre' =>
              rw [List.cons_append] at heq
              obtain ⟨rfl, hrest⟩ := List.cons.inj heq
              obtain ⟨err, herr, hinv⟩ := ih.mpr
                ⟨pre', bad, post, hrest, fun q hq => hpre q (List.mem_cons_of_mem i hq),
                  hblen, hbad⟩
              refine ⟨err, ?_, hinv⟩
              rw [hc, herr]

theorem batchLoop_fst (store : String → Except Unit (List AvailabilityRecord)) :
    ∀ (ids : List String) (res : List (String × List TimeInterval)),
    batchLoop store ids = .ok res → res.map Prod.fst = ids := by
  intro ids
  induction ids with
  | nil =>
    intro res h
    rw [batchLoop] at h
    obtain rfl : [] = res := by simpa using h
    rfl
  | cons uid rest ih =>
    intro res h
    rw [batchLoop] at h
    cases hst : store uid with
    | error e =>
      rw [hst] at h
      simp at h
    | ok records =>
      rw [hst] at h
      dsimp only at h
      cases hrec : batchLoop store rest with
      | error e =>
        rw [hrec] at h
        simp at h
      | ok out =>
        rw [hrec] at h
        obtain rfl : (uid, groupConsecutiveChunks (records.map fun r =>
            [r.startTime, r.endTime])) :: out = res := by simpa using h
        rw [List.map_cons, ih out hrec]

/-- C8: getBatch (GetBatchAvailability).  A non-elevated caller whose
requested ID list contains any foreign ID gets Forbidden for the whole
request, and the result is the same for every store — no storage read
influences it, so no per-user data can be returned (all-or-nothing);
and on success the aggregates come back in exactly the order of the
requested IDs. -/
theorem getBatch_forbidden_and_order :
    (∀ (cu : CurrentUser) (userIds : List String)
        (store store' : String → Except Unit (List AvailabilityRecord)),
      cu.role ≠ "admin" → (∃ uid ∈ userIds, uid ≠ cu.userID) →
      getBatchAvailability cu userIds store = .error .forbidden ∧
        getBatchAvailability cu userIds store = getBatchAvailability cu userIds store') ∧
    ∀ (cu : CurrentUser) (userIds : List String)
        (store : String → Except Unit (List AvailabilityRecord))
        (res : List (String × List TimeInterval)),
      getBatchAvailability cu userIds store = .ok res → res.map Prod.fst = userIds := by
  constructor
  · intro cu ids store store' hrole hforeign
    have hne : ¬ ids.length = 0 := by
      obtain ⟨uid, huid, -⟩ := hforeign
      intro h0
      rw [List.length_eq_zero] at h0
      subst h0
      simp at huid
    have h : ∀ st : String → Except Unit (List AvailabilityRecord),
        getBatchAvailability cu ids st = .error .forbidden := by
      intro st
      rw [getBatchAvailability, if_neg hne, if_pos ⟨hrole, hforeign⟩]
    exact ⟨h store, (h store).trans (h store').symm⟩
  · intro cu ids store res hok
    rw [getBatchAvailability] at hok
    split_ifs at hok with h1 h2
    exact batchLoop_fst store ids res hok

/-- C8 witness: a non-admin caller requesting their own and a foreign
ID is refused identically under two different stores. -/
theorem getBatch_forbidden_and_order_witness :
    ((CurrentUser.mk "alice" "org1" "student").role ≠ "admin" ∧
      (∃ uid ∈ ["alice", "bob"], uid ≠ (CurrentUser.mk "alice" "org1" "student").userID)) ∧
    (getBatchAvailability (CurrentUser.mk "alice" "org1" "student") ["alice", "bob"]
        (fun _ => .ok []) = .error .forbidden ∧
      getBatchAvailability (CurrentUser.mk "alice" "org1" "student") ["alice", "bob"]
          (fun _ => .ok []) =
        getBatchAvailability (CurrentUser.mk "alice" "org1" "student") ["alice", "bob"]
          (fun _ => .error ())) :=
  ⟨⟨by decide, by decide⟩,
    getBatch_forbidden_and_order.1 (CurrentUser.mk "alice" "org1" "student") ["alice", "bob"]
      (fun _ => .ok []) (fun _ => .error ()) (by decide) (by decide)⟩

/-- C9: a remove entry whose arity is not exactly 2 is a no-op for
removeTimeInterval, and the whole remove phase of update gives the same
result as if the malformed entries were absent — in particular the
request never fails on their account (the subtraction phase is total
and error-free by construction). -/
theorem update_malformed_remove_noop :
    (∀ (intervals : List TimeInterval) (r : TimeInterval), r.length ≠ 2 →
      removeTimeInterval intervals r = intervals) ∧
    ∀ (intervals removes : List TimeInterval),
      applyRemovals intervals removes =
        applyRemovals intervals (removes.filter fun r => r.length == 2) := by
  have h1 : ∀ (intervals : List TimeInterval) (r : TimeInterval), r.length ≠ 2 →
      removeTimeInterval intervals r = intervals := by
    intro intervals r h
    rw [removeTimeInterval, if_pos h]
  refine ⟨h1, ?_⟩
  intro intervals removes
  induction removes generalizing intervals with
  | nil => rfl
  | cons r rest ih =>
    by_cases h : r.length = 2
    · rw [applyRemovals, List.filter_cons_of_pos (by simpa using h), applyRemovals, ih]
    · rw [applyRemovals, List.filter_cons_of_neg (by simpa using h), h1 _ _ h, ih]

/-- C9 witness: an empty remove entry leaves the stored ranges
untouched. -/
theorem update_malformed_remove_noop_witness :
    (([] : TimeInterval).length ≠ 2) ∧
    removeTimeInterval [[(1 : Int), 2]] [] = [[(1 : Int), 2]] :=
  ⟨by decide, update_malformed_remove_noop.1 [[(1 : Int), 2]] [] (by decide)⟩

theorem convert_degenerate : ∀ intervals : List TimeInterval,
    (∀ i ∈ intervals, i.length = 2 ∧ minuteOf (tiStart i) % 15 = 0 ∧
      minuteOf (tiEnd i) % 15 = 0 ∧ tiEnd i ≤ tiStart i) →
    convertIntervalsIntoChunks intervals = .ok [] := by
  intro intervals
  induction intervals with
  | nil => intro _; rfl
  | cons i rest ih =>
    intro h
    obtain ⟨hlen, h1, h2, hle⟩ := h i (List.mem_cons_self i rest)
    rw [convertIntervalsIntoChunks, if_neg (by omega)]
    dsimp only
    rw [if_neg (by simp [h1]), if_neg (by simp [h2])]
    rw [ih (fun i' hi' => h i' (List.mem_cons_of_mem _ hi'))]
    rw [chunkWalk_of_le hle]
    rfl

/-- C10: a 2-element interval that passes the minute-of-hour checks but
whose end is at or before its start produces zero blocks and no error
(degenerate and reversed intervals are silently dropped), so create
(CreateAvailability) on a non-empty request made only of such intervals
fails with NoValidIntervals, not with a boundary error. -/
theorem create_degenerate_noValidIntervals :
    ∀ intervals : List TimeInterval, intervals ≠ [] →
      (∀ i ∈ intervals, i.length = 2 ∧ minuteOf (tiStart i) % 15 = 0 ∧
        minuteOf (tiEnd i) % 15 = 0 ∧ tiEnd i ≤ tiStart i) →
      convertIntervalsIntoChunks intervals = .ok [] ∧
        createAvailabilityCheck intervals = .error .noValidIntervals := by
  intro intervals hne hshape
  have hok := convert_degenerate intervals hshape
  refine ⟨hok, ?_⟩
  rw [createAvailabilityCheck, if_neg (by simpa [List.length_eq_zero] using hne), hok]
  rfl

/-- C10 witness: a single reversed aligned interval. -/
theorem create_degenerate_noValidIntervals_witness :
    (([[(900000000000 : Int), 0]] : List TimeInterval) ≠ [] ∧
      (∀ i ∈ ([[(900000000000 : Int), 0]] : List TimeInterval), i.length = 2 ∧
        minuteOf (tiStart i) % 15 = 0 ∧ minuteOf (tiEnd i) % 15 = 0 ∧ tiEnd i ≤ tiStart i)) ∧
    (convertIntervalsIntoChunks [[(900000000000 : Int), 0]] = .ok [] ∧
      createAvailabilityCheck [[(900000000000 : Int), 0]] = .error .noValidIntervals) :=
  ⟨⟨by decide, by decide⟩,
    create_degenerate_noValidIntervals [[(900000000000 : Int), 0]] (by decide) (by decide)⟩

end BookSmart
